import Mathlib

/-!
# Verification of the cube process-composition runtime

A shallow embedding of the core of the `cube` repository:

* the component group lifecycle orchestrator (`src/component/group.go`,
  and its earlier revision in `src/unnamed/part_012`),
* the type-keyed dependency container (`src/unnamed/part_014`, the
  DAG-based revision with `Add`/`Create`/`get`/`checkParent`),
* the dependency graph (`src/di/dag.go`).

Go `reflect.Type` keys are embedded as natural numbers, Go errors as
natural-number codes (only presence/identity of an error matters to the
properties below), and stateful methods as explicit state passing.
-/

namespace Cube

/-- An error value.  The Go code only ever propagates `error` values
around; their identity is all that matters here, so we use `Nat`. -/
abbrev Err := Nat

/-- `key %s already exists` (dag.NewVertex). -/
def eDupVertex : Err := 1
/-- `key %s does not exist` (dag.addEdge). -/
def eUnknownVertex : Err := 2
/-- `edge to self is not allowed` (dag.addEdge). -/
def eSelfDep : Err := 3
/-- `edge from %s to %s makes a cycle` (dag.addEdge). -/
def eCycle : Err := 4
/-- `Constructor function must construct something other than errors` (Container.Add). -/
def eNoOutput : Err := 5
/-- `constructor cannot depend on error type` (Container.Add). -/
def eErrDep : Err := 6
/-- `constructor for type %v is already present` (Container.Add). -/
def eDupProducer : Err := 7
/-- `dependency %v to produce %v is cyclic` (Container.Add). -/
def eCyclicDep : Err := 8
/-- `dependency for type %v not found` (Container.get). -/
def eNotFound : Err := 9
/-- `type %v is already present` (Container.Create). -/
def eAlreadyPresent : Err := 10

/-! ## Group lifecycle (`src/component/group.go`)

A lifecycle hook of a component.  In the source, a hook is an object
implementing `StartHook`/`StopHook`; the group dispatches it through
`g.c.Invoke(h.Start, nil)` (resp. `h.Stop`), which resolves the hook's
single `Context` parameter (always registered by `newGroup`) and
propagates the hook's own returned error unchanged.  We therefore embed
a hook as the observable part of that dispatch: a name (so invocation
traces can be recorded) and the error the hook returns when invoked. -/
structure Hook where
  name : Nat
  err : Option Err
deriving DecidableEq

/-- A component group (`type group struct`): its start hooks, stop hooks
(in registration order, as collected by `addLCHooks`/`vf`) and its child
groups.  Children are held in a Go map; we embed them as a list whose
order stands for one iteration order of that map. -/
inductive GroupT where
  | node (startHooks : List Hook) (stopHooks : List Hook) (children : List GroupT)

/-- The stop-hook phase of `group.Stop` (group.go lines 198-207):

```go
if len(g.stopHooks) > 0 {
    for i := len(g.stopHooks) - 1; i == 0; i-- {
        h := g.stopHooks[i]
        if err := g.c.Invoke(h.Stop, nil); err != nil { e = err }
    }
}
```

The `for` loop's guard is `i == 0` (not `i >= 0`), so the body runs only
when the starting index `len-1` is exactly `0`; after that one iteration
`i` becomes `-1` and the guard fails.  Hence exactly one hook (index 0)
is invoked when there is exactly one stop hook, and no hook is invoked
otherwise.  The embedding renders that unrolled loop: the result is the
updated last-recorded error and the list of hook names invoked. -/
def stopHookPhase (e : Option Err) (hooks : List Hook) : Option Err × List Nat :=
  if hooks.length > 0 then
    if hooks.length - 1 = 0 then
      match hooks.head? with
      | some h =>
        match h.err with
        | some er => (some er, [h.name])
        | none => (e, [h.name])
      | none => (e, [])
    else (e, [])
  else (e, [])

mutual

/-- `group.Stop` (group.go lines 188-209): stop all child groups first
(each child's result overwriting `e`), then run the stop-hook phase.
Returns the final recorded error and the trace of all stop-hook names
invoked anywhere in the subtree, in invocation order. -/
def stopG : GroupT → Option Err × List Nat
  | .node _ sh cs =>
    let rc := stopChildren none cs
    let rh := stopHookPhase rc.1 sh
    (rh.1, rc.2 ++ rh.2)

/-- The child loop of `group.Stop`:
`for _, child := range g.children { e = child.Stop() }` —
each child's result unconditionally overwrites the recorded error. -/
def stopChildren : Option Err → List GroupT → Option Err × List Nat
  | e, [] => (e, [])
  | _, c :: rest =>
    let r := stopG c
    let rr := stopChildren r.1 rest
    (rr.1, r.2 ++ rr.2)

end

/-- Outcome of `group.Start`: the returned error, the trace of start
hooks invoked (in order, including a hook that was invoked and failed),
the trace of stop hooks invoked by any best-effort rollback `Stop`, and
whether this group's own `Stop` was invoked as a rollback. -/
structure StartOut where
  res : Option Err
  started : List Nat
  stopped : List Nat
  rolledBack : Bool
deriving DecidableEq

/-- The start-hook loop of `group.Start`: invoke each start hook in
registration order; on the first error stop the loop and report it.
Returns the error (if any) and the names of the hooks invoked. -/
def startHookLoop : List Hook → Option Err × List Nat
  | [] => (none, [])
  | h :: rest =>
    match h.err with
    | some e => (some e, [h.name])
    | none =>
      let r := startHookLoop rest
      (r.1, h.name :: r.2)

mutual

/-- `group.Start` (group.go lines 166-185): run the start hooks in
registration order; on the first hook error, invoke this group's own
`Stop` (via `defer g.Stop()`, its error ignored) and return the error
without running remaining hooks or descending into children.  On
success, start the children; a child's error propagates without this
group re-stopping itself. -/
def startG : GroupT → StartOut
  | .node sh oh cs =>
    let hl := startHookLoop sh
    match hl.1 with
    | some e =>
      { res := some e, started := hl.2,
        stopped := (stopG (.node sh oh cs)).2, rolledBack := true }
    | none =>
      let rc := startChildren cs
      { res := rc.res, started := hl.2 ++ rc.started,
        stopped := rc.stopped, rolledBack := false }

/-- The child loop of `group.Start`:
`for _, child := range g.children { if err := child.Start(); err != nil { return err } }`. -/
def startChildren : List GroupT → StartOut
  | [] => ⟨none, [], [], false⟩
  | c :: rest =>
    let r := startG c
    match r.res with
    | some _ => r
    | none =>
      let rr := startChildren rest
      ⟨rr.res, r.started ++ rr.started, r.stopped ++ rr.stopped, rr.rolledBack⟩

end

/-- A concrete group with three started components A, B, C (registered
in that order), each with a stop hook: the scenario of spec §8. -/
def threeHookGroup : GroupT :=
  .node [⟨1, none⟩, ⟨2, none⟩, ⟨3, none⟩] [⟨1, none⟩, ⟨2, none⟩, ⟨3, none⟩] []

/-- A concrete group with two stop hooks where the later-registered one
returns an error. -/
def twoHookErrGroup : GroupT :=
  .node [] [⟨1, none⟩, ⟨2, some 7⟩] []

/-- C1: the claim states that stopping a group with stop hooks A, B, C
(registered in that order) invokes each hook exactly once, in reverse
order C, B, A.  On the code as written this fails: the loop guard
`i == 0` in `group.Stop` makes the hook loop execute zero times whenever
there is more than one stop hook, so stopping `threeHookGroup` invokes
no stop hook at all (empty invocation trace) and returns nil. -/
theorem stop_three_hooks_runs_none :
    stopG threeHookGroup = (none, []) ∧ (startG threeHookGroup).res = none := by
  constructor
  · simp [threeHookGroup, stopG, stopChildren, stopHookPhase]
  · simp [threeHookGroup, startG, startChildren, startHookLoop]

/-- C2: the claim states that `Stop` attempts every stop hook even when
earlier hooks error, and returns the last observed error.  On the code
as written this fails for the same `i == 0` loop-guard reason: with two
stop hooks (the later-registered returning error 7), neither hook is
attempted and `Stop` returns nil instead of the error. -/
theorem stop_two_hooks_attempts_none :
    stopG twoHookErrGroup = (none, []) := by
  simp [twoHookErrGroup, stopG, stopChildren, stopHookPhase]

/-- Auxiliary: the start-hook loop stops exactly at the first failing
hook, having invoked the preceding hooks and the failing one. -/
theorem startHookLoop_fail (pre post : List Hook) (h : Hook) (e : Err)
    (hpre : ∀ x ∈ pre, x.err = none) (he : h.err = some e) :
    startHookLoop (pre ++ h :: post) = (some e, pre.map Hook.name ++ [h.name]) := by
  induction pre with
  | nil => simp [startHookLoop, he]
  | cons a pre ih =>
    have ha : a.err = none := hpre a (by simp)
    have : ∀ x ∈ pre, x.err = none := fun x hx => hpre x (by simp [hx])
    simp [startHookLoop, ha, ih this]

/-- C8: when a start hook returns an error, `Start` returns that error,
the invocation trace contains exactly the earlier hooks of this group
and the failing hook (no later hook of this group, nothing from any
child group), this group's own `Stop` is invoked as a best-effort local
rollback, and the stop hooks that run are exactly those this group's own
`Stop` runs. -/
theorem start_fail_fast (pre post oh : List Hook) (cs : List GroupT) (h : Hook) (e : Err)
    (hpre : ∀ x ∈ pre, x.err = none) (he : h.err = some e) :
    startG (.node (pre ++ h :: post) oh cs) =
      { res := some e,
        started := pre.map Hook.name ++ [h.name],
        stopped := (stopG (.node (pre ++ h :: post) oh cs)).2,
        rolledBack := true } := by
  simp [startG, startHookLoop_fail pre post h e hpre he]

/-- Witness for C8 at a concrete input: three start hooks where the
second fails with error 5; the third hook and the child are not started,
and the rollback `Stop` runs no stop hook (the group has none). -/
theorem start_fail_fast_witness :
    startG (.node [⟨1, none⟩, ⟨2, some 5⟩, ⟨3, none⟩] [] [.node [⟨4, none⟩] [] []]) =
      { res := some 5, started := [1, 2], stopped := [], rolledBack := true } := by
  have h := start_fail_fast [⟨1, none⟩] [⟨3, none⟩] [] [.node [⟨4, none⟩] [] []]
    ⟨2, some 5⟩ 5 (by simp) rfl
  simpa [stopG, stopChildren, stopHookPhase] using h

/-- Auxiliary: the recorded error after the child loop of `Stop` is the
result of the last child, whatever error was recorded before. -/
theorem stopChildren_last (e : Option Err) (cs : List GroupT) (c : GroupT) :
    (stopChildren e (cs ++ [c])).1 = (stopG c).1 := by
  induction cs generalizing e with
  | nil => simp [stopChildren]
  | cons a cs ih => simp [stopChildren, ih]

/-- C10: in `group.Stop`, each child's result unconditionally overwrites
the previously recorded error (the error after the child loop is always
the last child's result), so a parent with no stop hooks of its own
returns nil whenever its last-stopped child returns nil — even if an
earlier-stopped child returned an error. -/
theorem stop_child_error_overwritten :
    (∀ (e : Option Err) (cs : List GroupT) (c : GroupT),
      (stopChildren e (cs ++ [c])).1 = (stopG c).1) ∧
    (∀ (sh : List Hook) (cs : List GroupT) (c : GroupT),
      (stopG c).1 = none → (stopG (.node sh [] (cs ++ [c]))).1 = none) := by
  refine ⟨stopChildren_last, fun sh cs c hc => ?_⟩
  simp [stopG, stopHookPhase, stopChildren_last none cs c, hc]

/-- A child group with a single stop hook that errors: with exactly one
hook the defective loop does run it, so its `Stop` returns error 3. -/
def erringChild : GroupT := .node [] [⟨9, some 3⟩] []

/-- Witness for C10 at a concrete input: a parent with two children, the
first of which fails its stop with error 3 and the second succeeds; the
parent's `Stop` returns nil. -/
theorem stop_child_error_overwritten_witness :
    (stopG (.node [] [] (erringChild :: [.node [] [] []]))).1 = none ∧
    (stopG erringChild).1 = some 3 := by
  constructor
  · exact stop_child_error_overwritten.2 [] [erringChild] (.node [] [] [])
      (by simp [stopG, stopChildren, stopHookPhase])
  · simp [erringChild, stopG, stopChildren, stopHookPhase]

/-! ## Directed-graph primitives

`src/di/dag.go` delegates edge bookkeeping, strongly-connected-component
computation and topological sorting to the `twmb/algoimpl/go/graph`
library, whose source is not part of this repository.  We embed a
directed graph as a list of edges over keys and give executable
definitions of reachability, the strongly-connected component of a
vertex, the acyclicity check, and a topological sort. -/

variable {α : Type} [DecidableEq α]

/-- `v` is reachable from `u` along the edge list `es` in at most `n`
steps (`reachesB es 0 u v` iff `u = v`). -/
def reachesB (es : List (α × α)) : Nat → α → α → Bool
  | 0, u, v => u == v
  | n + 1, u, v => u == v || es.any (fun e => e.1 == u && reachesB es n e.2 v)

/-- Executable reachability: a path that repeats no intermediate vertex
makes at most `es.length` steps, so `es.length` bounds the search. -/
def reaches (es : List (α × α)) (u v : α) : Bool :=
  reachesB es es.length u v

/-- The strongly connected component of `v`: the vertices mutually
reachable with `v`.  The library computes the components by Tarjan's
algorithm; modelled from the spec as mutual reachability (the standard
definition), restricted to the graph's vertex list `keys`. -/
def sccOf (keys : List α) (es : List (α × α)) (v : α) : List α :=
  keys.filter (fun w => reaches es v w && reaches es w v)

/-- `isAcyclic` (dag.go lines 112-123): compute the strongly connected
components and report acyclic iff no component holds more than one
vertex.  (Tarjan lists each component once; iterating per vertex instead
lists each component once per member, which leaves the "some component
has length > 1" test unchanged.) -/
def acyclicSCC (keys : List α) (es : List (α × α)) : Bool :=
  keys.all (fun v => !((sccOf keys es v).length > 1))

/-- `v` has no incoming edge from a vertex still in `rem`. -/
def noIncoming (es : List (α × α)) (rem : List α) (v : α) : Bool :=
  !(es.any (fun e => e.2 == v && rem.contains e.1))

/-- Kahn-style topological sort: repeatedly emit a vertex of `rem` with
no incoming edge from the rest of `rem`.  The fuel `n` starts at
`rem.length`, which suffices because each step removes the emitted
vertex; if no such vertex exists (a cycle among `rem`, which cannot
happen for the acyclic states the DAG maintains) the remaining vertices
are emitted as-is. -/
def topoAux (es : List (α × α)) : Nat → List α → List α
  | 0, rem => rem
  | n + 1, rem =>
    match rem.find? (noIncoming es rem) with
    | some v => v :: topoAux es n (rem.erase v)
    | none => rem

/-- Modelled from the spec: the graph library's `TopologicalSort` (not
under `src/`), specified in §4.1 as any total order consistent with
"dependency before producer".  Every edge `(d, p)` of an acyclic graph
ends with `d` emitted strictly before `p`. -/
def topoSort (es : List (α × α)) (keys : List α) : List α :=
  topoAux es keys.length keys

/-! ## Container (`src/unnamed/part_014`, DAG-based revision) -/

/-- A Go `reflect.Type` as the container observes it: a base-type key,
whether the type is a pointer to that base, and whether the type
implements the `error` interface. -/
structure GoType where
  ptr : Bool
  key : Nat
  isErr : Bool
deriving DecidableEq

/-- `baseType` (part_014 lines 302-307): strip one level of pointer
indirection. -/
def GoBase (t : GoType) : GoType := { t with ptr := false }

/-- A Go `reflect.Value`: the type it carries, a tag distinguishing the
value, and — when the type is error-like — the error it holds (`none`
standing for the nil error). -/
structure Val where
  ty : GoType
  tag : Nat
  errVal : Option Err
deriving DecidableEq

/-- `checkError` (part_014 lines 278-288): if the last returned value is
error-typed and non-nil, report it. -/
def checkErrorRets (returned : List Val) : Option Err :=
  match returned.getLast? with
  | some last => if last.ty.isErr then last.errVal else none
  | none => none

/-- A constructor/function value: its parameter types (`ins`, with
`variadic` marking a variadic final parameter), its result types
(`outs`), and the values it returns when called (`rets`). -/
structure Ctor where
  ins : List GoType
  variadic : Bool
  outs : List GoType
  rets : List Val
deriving DecidableEq

/-- `numArgs` (part_014 lines 225-232): the number of parameters to
resolve, ignoring a variadic final parameter. -/
def numArgs (c : Ctor) : Nat :=
  if c.variadic then c.ins.length - 1 else c.ins.length

/-- The dependency graph owned by a container.  The container calls
`AddVertex`, `GetValue`, `SetValue`, `RemoveVertex`, `AddDependencies`
and `Sort` on it; that revision of the graph is not under `src/`, so
those methods are modelled below from the spec (§4.1) and from their
call sites in `Container.Add`/`Container.Create`.  Vertices carry the
registered constructor as payload (`none` = forward reference); an edge
`(d, p)` records that producing `p` depends on `d`. -/
structure CDag where
  verts : List (GoType × Option Ctor)
  edges : List (GoType × GoType)
deriving DecidableEq

/-- Payload lookup helper: the vertex entry for `k`, if present. -/
def findVert (vs : List (GoType × Option Ctor)) (k : GoType) : Option (Option Ctor) :=
  (vs.find? (fun p => p.1 == k)).map Prod.snd

namespace CDag

/-- Modelled from the spec (§4.1 `addVertex`): inserting an existing key
fails (the caller decides, via `GetValue`, whether the existing vertex
was a payload-less forward reference); a fresh key is appended. -/
def AddVertex (g : CDag) (k : GoType) (p : Option Ctor) : Option Err × CDag :=
  if (findVert g.verts k).isSome then (some eDupVertex, g)
  else (none, { g with verts := g.verts ++ [(k, p)] })

/-- Modelled from the spec: the payload of `k`, `none` when the vertex
is absent or still a forward reference. -/
def GetValue (g : CDag) (k : GoType) : Option Ctor :=
  match findVert g.verts k with
  | some p => p
  | none => none

/-- Modelled from the spec (§4.1 `setPayload`): attach a deferred
producer to a previously forward-referenced vertex. -/
def SetValue (g : CDag) (k : GoType) (c : Ctor) : CDag :=
  { g with verts := g.verts.map (fun p => if p.1 == k then (p.1, some c) else p) }

/-- Modelled from the spec (§4.2: a failed registration "rolls back only
the edges/vertices added by this call"): drop the vertex and its
incident edges. -/
def RemoveVertex (g : CDag) (k : GoType) : CDag :=
  { verts := g.verts.filter (fun p => !(p.1 == k)),
    edges := g.edges.filter (fun e => !(e.1 == k) && !(e.2 == k)) }

/-- Modelled from the spec (§4.1 `addEdge`), in the shape of
`dag.addEdge` in `src/di/dag.go`: both endpoints must exist, a
self-dependency is rejected, and an edge whose insertion makes the graph
cyclic (checked via strongly connected components) is removed again
before the error returns. -/
def AddDependencies (g : CDag) (t d : GoType) : Option Err × CDag :=
  if (findVert g.verts t).isNone then (some eUnknownVertex, g)
  else if (findVert g.verts d).isNone then (some eUnknownVertex, g)
  else if t == d then (some eSelfDep, g)
  else
    let g' : CDag := { g with edges := (d, t) :: g.edges }
    if !(acyclicSCC (g'.verts.map Prod.fst) g'.edges) then
      (some eCycle, { g' with edges := g'.edges.erase (d, t) })
    else (none, g')

/-- Modelled from the spec (§4.1 `topologicalSort`): the vertex keys
in an order consistent with "dependency before producer".  (The source
method is named `Sort`; `Sort` is reserved in Lean.) -/
def sortKeys (g : CDag) : List GoType :=
  topoSort g.edges (g.verts.map Prod.fst)

end CDag

/-- One container of the parent chain (`type Container struct`,
part_014 lines 23-28): the object table keyed by base-type key, the
shadow set `dupes`, and the dependency graph.  The `parent` pointer is
embedded by handling a container as a `Frame` together with the list of
its ancestor frames (nearest first). -/
structure Frame where
  objTable : List (Nat × Val)
  dupes : List GoType
  dag : CDag
deriving DecidableEq

/-- Object-table lookup by base-type key. -/
def lookupTable (tbl : List (Nat × Val)) (k : Nat) : Option Val :=
  (tbl.find? (fun p => p.1 == k)).map Prod.snd

/-- Go-map assignment `objTable[k] = v`. -/
def tableInsert (tbl : List (Nat × Val)) (k : Nat) (v : Val) : List (Nat × Val) :=
  if (tbl.find? (fun p => p.1 == k)).isSome then
    tbl.map (fun p => if p.1 == k then (k, v) else p)
  else tbl ++ [(k, v)]

/-- `Container.checkParent` (part_014 lines 234-244): consult the parent
iff one exists and the requested type is not in the shadow set (`dupes`
membership compares the un-normalized type). -/
def checkParent (f : Frame) (anc : List Frame) (t : GoType) : Bool :=
  match anc with
  | [] => false
  | _ :: _ => !(f.dupes.contains t)

/-- The local half of `Container.get`: normalize the type and look up
this container's own object table; absent means `DependencyNotFound`. -/
def localGet (f : Frame) (t : GoType) : Except Err Val :=
  match lookupTable f.objTable (GoBase t).key with
  | some v => .ok v
  | none => .error eNotFound

/-- `Container.get` (part_014 lines 246-270): if `checkParent` allows,
delegate to the parent chain first and return its value on success; only
on parent failure (or when shadowed, or at the root) consult the local
object table. -/
def getC (f : Frame) : List Frame → GoType → Except Err Val
  | [], t => localGet f t
  | p :: panc, t =>
    if checkParent f (p :: panc) t then
      match getC p panc t with
      | .ok v => .ok v
      | .error _ => localGet f t
    else localGet f t

/-- Resolve a list of parameter types in order, stopping at the first
failure (the loop body of `buildArgs`). -/
def resolveAll (f : Frame) (anc : List Frame) : List GoType → Except Err (List Val)
  | [] => .ok []
  | t :: ts =>
    match getC f anc t with
    | .error e => .error e
    | .ok v =>
      match resolveAll f anc ts with
      | .error e => .error e
      | .ok vs => .ok (v :: vs)

/-- `Container.buildArgs` (part_014 lines 138-151): resolve the first
`numArgs` parameter types — a variadic final parameter is ignored. -/
def buildArgs (f : Frame) (anc : List Frame) (c : Ctor) : Except Err (List Val) :=
  resolveAll f anc (c.ins.take (numArgs c))

/-- `Container.Invoke` with a nil value processor (part_014 lines
53-83): build the arguments, call the function, and propagate the error
its trailing error result carries, if any.  (The `checkFunc` guard
cannot fail here: every `Ctor` is a function value.) -/
def invokeC (f : Frame) (anc : List Frame) (c : Ctor) : Option Err :=
  match buildArgs f anc c with
  | .error e => some e
  | .ok _ =>
    match checkErrorRets c.rets with
    | some e => some e
    | none => none

/-- `nOut` computation of `Container.Add` (lines 164-171): the result
types with a trailing error-like result dropped. -/
def effOuts (c : Ctor) : List GoType :=
  match c.outs.getLast? with
  | some t => if (GoBase t).isErr then c.outs.dropLast else c.outs
  | none => c.outs

/-- The dependency computation of `Container.Add` (lines 173-182): the
normalized types of the first `numArgs` parameters; depending on an
error-like type is rejected. -/
def depsOf : List GoType → Except Err (List GoType)
  | [] => .ok []
  | t :: ts =>
    let tb := GoBase t
    if tb.isErr then .error eErrDep
    else
      match depsOf ts with
      | .error e => .error e
      | .ok ds => .ok (tb :: ds)

/-- The inner dependency loop of `Container.Add` (lines 204-218): add a
placeholder vertex for each dependency (its error ignored) and an edge
`dependency → producer`; a cycle aborts with an error, the graph left as
`AddDependencies` left it. -/
def addDepsLoop (t : GoType) : CDag → List GoType → Option Err × CDag
  | g, [] => (none, g)
  | g, d :: ds =>
    let g1 := (CDag.AddVertex g d none).2
    match CDag.AddDependencies g1 t d with
    | (some _, g2) => (some eCyclicDep, g2)
    | (none, g2) => addDepsLoop t g2 ds

/-- Roll back the vertices added for the outputs already processed
(lines 193-198 of `Container.Add`). -/
def rollbackVerts (g : CDag) (processed : List GoType) : CDag :=
  processed.foldl (fun g t => CDag.RemoveVertex g (GoBase t)) g

/-- The output loop of `Container.Add` (lines 184-220): for each
non-error result type, insert a producer vertex; if the key exists with
a payload already set, roll back this call's earlier output vertices and
fail with `DuplicateProducer`; if it exists as a payload-less forward
reference, set its payload; then record the dependency edges. -/
def addOutsLoop (ctr : Ctor) (deps : List GoType) :
    CDag → List GoType → List GoType → Option Err × CDag
  | g, _, [] => (none, g)
  | g, processed, t :: rest =>
    let tb := GoBase t
    if !tb.isErr then
      let afterVertex : Option (Option Err × CDag) :=
        match CDag.AddVertex g tb (some ctr) with
        | (none, g1) => some (none, g1)
        | (some _, _) =>
          match CDag.GetValue g tb with
          | some _ => none
          | none => some (none, CDag.SetValue g tb ctr)
      match afterVertex with
      | none => (some eDupProducer, rollbackVerts g processed)
      | some (_, g1) =>
        match addDepsLoop tb g1 deps with
        | (some e, g2) => (some e, g2)
        | (none, g2) => addOutsLoop ctr deps g2 (processed ++ [t]) rest
    else addOutsLoop ctr deps g (processed ++ [t]) rest

/-- `Container.Add` (part_014 lines 157-223): register a constructor
lazily — validate it produces something besides errors, reject
error-typed dependencies, and record producer vertices and dependency
edges in this container's own graph.  No parent container and no shadow
set is consulted here. -/
def addC (f : Frame) (c : Ctor) : Option Err × Frame :=
  if effOuts c = [] then (some eNoOutput, f)
  else
    match depsOf (c.ins.take (numArgs c)) with
    | .error e => (some e, f)
    | .ok deps =>
      let r := addOutsLoop c deps f.dag [] (effOuts c)
      (r.1, { f with dag := r.2 })

/-- The result processor of `Container.Create` (lines 100-113), folded
over the returned values: reject a value whose (normalized) type is
already visible from this container — through the parent chain unless
shadowed — and collect the values to cache. -/
def createProcessRets (f : Frame) (anc : List Frame) : List Val → Except Err (List Val)
  | [] => .ok []
  | v :: vs =>
    let t := GoBase v.ty
    match getC f anc t with
    | .ok _ => .error eAlreadyPresent
    | .error _ =>
      match createProcessRets f anc vs with
      | .error e => .error e
      | .ok rest => .ok (v :: rest)

/-- Cache the values produced by one constructor invocation
(lines 128-132). -/
def cacheVals (tbl : List (Nat × Val)) : List Val → List (Nat × Val)
  | [] => tbl
  | v :: vs => cacheVals (tableInsert tbl (GoBase v.ty).key v) vs

/-- The sorted-vertex loop of `Container.Create` (lines 115-133):
skip forward references whose producer never arrived (resolution is
deferred to the parent chain), invoke each registered constructor in
topological order, and cache its results. -/
def createLoop (anc : List Frame) : Frame → List GoType → Option Err × Frame
  | f, [] => (none, f)
  | f, k :: ks =>
    match CDag.GetValue f.dag k with
    | none => createLoop anc f ks
    | some ctr =>
      match buildArgs f anc ctr with
      | .error e => (some e, f)
      | .ok _ =>
        match checkErrorRets ctr.rets with
        | some e => (some e, f)
        | none =>
          match createProcessRets f anc ctr.rets with
          | .error e => (some e, f)
          | .ok vals =>
            createLoop anc { f with objTable := cacheVals f.objTable vals } ks

/-- `Container.Create` (part_014 lines 98-136): run the registered
constructors of this container in topological order. -/
def createC (f : Frame) (anc : List Frame) : Option Err × Frame :=
  createLoop anc f (CDag.sortKeys f.dag)

/-! ### Resolution precedence (C5) -/

/-- A type is reachable for resolution from a container iff it is in the
local object table, or the parent chain may be consulted for it
(`checkParent`: a parent exists and the type is not shadowed) and it is
reachable from the parent. -/
inductive Visible : Frame → List Frame → GoType → Prop
  | here {f : Frame} {anc : List Frame} {t : GoType} (v : Val) :
      lookupTable f.objTable (GoBase t).key = some v → Visible f anc t
  | up {f p : Frame} {panc : List Frame} {t : GoType} :
      checkParent f (p :: panc) t = true → Visible p panc t →
      Visible f (p :: panc) t

/-- `get` succeeds exactly on the reachable types. -/
theorem getC_ok_iff_visible (f : Frame) (anc : List Frame) (t : GoType) :
    (∃ v, getC f anc t = .ok v) ↔ Visible f anc t := by
  induction anc generalizing f with
  | nil =>
    constructor
    · rintro ⟨v, hv⟩
      simp only [getC, localGet] at hv
      cases h : lookupTable f.objTable (GoBase t).key with
      | none => simp [h] at hv
      | some w => exact .here w h
    · rintro (⟨v, hv⟩ | _)
      exact ⟨v, by simp [getC, localGet, hv]⟩
  | cons p panc ih =>
    by_cases hcp : checkParent f (p :: panc) t = true
    · constructor
      · rintro ⟨v, hv⟩
        simp only [getC, hcp, if_true] at hv
        cases hp : getC p panc t with
        | ok w => exact .up hcp ((ih p).mp ⟨w, hp⟩)
        | error e =>
          rw [hp] at hv
          simp only [localGet] at hv
          cases h : lookupTable f.objTable (GoBase t).key with
          | none => simp [h] at hv
          | some w => exact .here w h
      · intro hvis
        cases hvis with
        | here v hv =>
          cases hp : getC p panc t with
          | ok w => exact ⟨w, by simp [getC, hcp, hp]⟩
          | error e => exact ⟨v, by simp [getC, hcp, hp, localGet, hv]⟩
        | up hc hvp =>
          obtain ⟨w, hw⟩ := (ih p).mpr hvp
          exact ⟨w, by simp [getC, hcp, hw]⟩
    · constructor
      · rintro ⟨v, hv⟩
        simp only [getC, hcp, if_false] at hv
        simp only [localGet] at hv
        cases h : lookupTable f.objTable (GoBase t).key with
        | none => simp [h] at hv
        | some w => exact .here w h
      · intro hvis
        cases hvis with
        | here v hv => exact ⟨v, by simp [getC, hcp, localGet, hv]⟩
        | up hc hvp => exact absurd hc hcp

/-- `get` fails only with the dependency-not-found error. -/
theorem getC_error_eq (f : Frame) (anc : List Frame) (t : GoType) :
    getC f anc t = .error eNotFound ∨ ∃ v, getC f anc t = .ok v := by
  induction anc generalizing f with
  | nil =>
    simp only [getC, localGet]
    cases lookupTable f.objTable (GoBase t).key <;> simp
  | cons p panc ih =>
    by_cases hcp : checkParent f (p :: panc) t = true
    · rcases ih p with hp | ⟨v, hp⟩
      · simp only [getC, hcp, if_true, hp, localGet]
        cases lookupTable f.objTable (GoBase t).key <;> simp
      · exact .inr ⟨v, by simp [getC, hcp, hp]⟩
    · simp only [getC, hcp, if_false, localGet]
      cases lookupTable f.objTable (GoBase t).key <;> simp

/-- Shadowing disables the parent consultation. -/
theorem checkParent_of_shadowed (f : Frame) (anc : List Frame) (t : GoType)
    (h : t ∈ f.dupes) : checkParent f anc t = false := by
  cases anc with
  | nil => rfl
  | cons p panc =>
    simp only [checkParent, Bool.not_eq_false', List.contains]
    exact List.elem_eq_true_of_mem h

/-- C5: resolution precedence of `Container.get`.
1. When the type is not shadowed and a parent exists, the parent chain
   is consulted first and its value is returned on success.
2. On parent failure, the local object table is consulted.
3. When the type is shadowed, resolution is local-only, so a type
   available both from a parent and locally resolves to the local value.
4. Resolution returns the dependency-not-found error iff the type is
   reachable from nowhere (neither locally nor through the unshadowed
   parent chain). -/
theorem resolve_precedence :
    (∀ (f p : Frame) (panc : List Frame) (t : GoType) (v : Val),
      checkParent f (p :: panc) t = true → getC p panc t = .ok v →
      getC f (p :: panc) t = .ok v) ∧
    (∀ (f p : Frame) (panc : List Frame) (t : GoType) (e : Err),
      checkParent f (p :: panc) t = true → getC p panc t = .error e →
      getC f (p :: panc) t = localGet f t) ∧
    (∀ (f : Frame) (anc : List Frame) (t : GoType) (v : Val),
      t ∈ f.dupes → lookupTable f.objTable (GoBase t).key = some v →
      getC f anc t = .ok v) ∧
    (∀ (f : Frame) (anc : List Frame) (t : GoType),
      getC f anc t = .error eNotFound ↔ ¬ Visible f anc t) := by
  refine ⟨?_, ?_, ?_, ?_⟩
  · intro f p panc t v hcp hok
    simp [getC, hcp, hok]
  · intro f p panc t e hcp herr
    simp [getC, hcp, herr]
  · intro f anc t v hdup hloc
    have hcp := checkParent_of_shadowed f anc t hdup
    cases anc with
    | nil => simp [getC, localGet, hloc]
    | cons p panc => simp [getC, hcp, localGet, hloc]
  · intro f anc t
    constructor
    · intro herr hvis
      obtain ⟨v, hv⟩ := (getC_ok_iff_visible f anc t).mpr hvis
      rw [herr] at hv
      exact Except.noConfusion hv
    · intro hnv
      rcases getC_error_eq f anc t with h | ⟨v, hv⟩
      · exact h
      · exact absurd ((getC_ok_iff_visible f anc t).mp ⟨v, hv⟩) hnv

/-- A parent frame providing type key 3, and a child shadowing it with a
different local value. -/
def parentFrame : Frame :=
  ⟨[(3, ⟨⟨false, 3, false⟩, 50, none⟩)], [], ⟨[], []⟩⟩

/-- The shadowed child frame: type key 3 is in its `dupes` set and its
object table holds its own value for key 3. -/
def childFrame : Frame :=
  ⟨[(3, ⟨⟨false, 3, false⟩, 60, none⟩)], [⟨false, 3, false⟩], ⟨[], []⟩⟩

/-- Witness for C5 at concrete inputs: an unshadowed type resolves to
the parent value first; a shadowed type resolves to the local value even
though the parent provides it; an absent type yields the not-found
error. -/
theorem resolve_precedence_witness :
    getC ⟨[], [], ⟨[], []⟩⟩ [parentFrame] ⟨false, 3, false⟩ =
      .ok ⟨⟨false, 3, false⟩, 50, none⟩ ∧
    getC childFrame [parentFrame] ⟨false, 3, false⟩ =
      .ok ⟨⟨false, 3, false⟩, 60, none⟩ ∧
    getC childFrame [parentFrame] ⟨false, 4, false⟩ = .error eNotFound := by
  refine ⟨?_, ?_, ?_⟩
  · exact resolve_precedence.1 ⟨[], [], ⟨[], []⟩⟩ parentFrame [] ⟨false, 3, false⟩
      ⟨⟨false, 3, false⟩, 50, none⟩ (by decide) rfl
  · exact resolve_precedence.2.2.1 childFrame [parentFrame] ⟨false, 3, false⟩
      ⟨⟨false, 3, false⟩, 60, none⟩ (by decide)
      (by simp [childFrame, lookupTable, GoBase, List.find?])
  · refine (resolve_precedence.2.2.2 childFrame [parentFrame] ⟨false, 4, false⟩).mpr ?_
    intro hvis
    cases hvis with
    | here v hv => simp [childFrame, lookupTable, GoBase, List.find?] at hv
    | up hc hvp =>
      cases hvp with
      | here v hv => simp [parentFrame, lookupTable, GoBase, List.find?] at hv

/-! ### Variadic parameters (C9) -/

/-- Successful resolution yields one value per requested type. -/
theorem resolveAll_length (f : Frame) (anc : List Frame) (ts : List GoType)
    (vs : List Val) (h : resolveAll f anc ts = .ok vs) : vs.length = ts.length := by
  induction ts generalizing vs with
  | nil => simp only [resolveAll] at h; cases h; rfl
  | cons t ts ih =>
    simp only [resolveAll] at h
    cases hg : getC f anc t with
    | error e => rw [hg] at h; exact Except.noConfusion h
    | ok v =>
      rw [hg] at h
      cases hr : resolveAll f anc ts with
      | error e => rw [hr] at h; exact Except.noConfusion h
      | ok ws => rw [hr] at h; cases h; simp [ih ws hr]

/-- C9: `Add` and `Invoke` do not treat a variadic final parameter as a
dependency.
1. `numArgs` excludes the variadic parameter.
2. `buildArgs` on a variadic function equals `buildArgs` on the same
   function with its variadic parameter dropped: only the non-variadic
   parameters are ever resolved.
3. The function is called with exactly `numArgs` arguments — zero
   variadic arguments.
4. Invoking a function whose only parameter is variadic succeeds in any
   container whatsoever (in particular when no value of the variadic
   element type is registered anywhere), provided the function itself
   returns no error.
5. Registering (`Add`) a constructor whose only parameter is variadic
   succeeds whenever its produced type is fresh in this container's
   graph, again independent of what is registered anywhere. -/
theorem variadic_not_a_dependency :
    (∀ c : Ctor, c.variadic = true → numArgs c = c.ins.length - 1) ∧
    (∀ (f : Frame) (anc : List Frame) (c : Ctor), c.variadic = true →
      buildArgs f anc c =
        buildArgs f anc { c with ins := c.ins.dropLast, variadic := false }) ∧
    (∀ (f : Frame) (anc : List Frame) (c : Ctor) (args : List Val),
      buildArgs f anc c = .ok args → args.length = numArgs c) ∧
    (∀ (f : Frame) (anc : List Frame) (c : Ctor), c.variadic = true →
      c.ins.length = 1 → checkErrorRets c.rets = none → invokeC f anc c = none) ∧
    (∀ (f : Frame) (c : Ctor) (t : GoType), c.variadic = true →
      c.ins.length = 1 → effOuts c = [t] → (GoBase t).isErr = false →
      findVert f.dag.verts (GoBase t) = none → (addC f c).1 = none) := by
  refine ⟨?_, ?_, ?_, ?_, ?_⟩
  · intro c hv; simp [numArgs, hv]
  · intro f anc c hv
    simp [buildArgs, numArgs, hv, List.dropLast_eq_take, List.take_take]
  · intro f anc c args h
    have h1 := resolveAll_length f anc (c.ins.take (numArgs c)) args h
    have h2 : numArgs c ≤ c.ins.length := by
      by_cases hv : c.variadic <;> simp [numArgs, hv]
    simp [h1, List.length_take, Nat.min_eq_left h2]
  · intro f anc c hv hlen hce
    have : numArgs c = 0 := by simp [numArgs, hv, hlen]
    simp [invokeC, buildArgs, this, resolveAll, hce]
  · intro f c t hv hlen hout hterr hfresh
    have hn : numArgs c = 0 := by simp [numArgs, hv, hlen]
    have hne : effOuts c ≠ [] := by rw [hout]; simp
    simp only [addC, hn, List.take_zero, depsOf, hout, if_neg hne]
    simp [addOutsLoop, hterr, CDag.AddVertex, hfresh, addDepsLoop]

/-- Witness for C9 at a concrete input: a constructor `func(b ...int) *T`
(variadic parameter of a type registered nowhere, producing type key 8)
registers and invokes successfully in an empty root container. -/
theorem variadic_not_a_dependency_witness :
    (addC ⟨[], [], ⟨[], []⟩⟩
        ⟨[⟨false, 99, false⟩], true, [⟨true, 8, false⟩], [⟨⟨true, 8, false⟩, 1, none⟩]⟩).1 =
      none ∧
    invokeC ⟨[], [], ⟨[], []⟩⟩ []
        ⟨[⟨false, 99, false⟩], true, [⟨true, 8, false⟩], [⟨⟨true, 8, false⟩, 1, none⟩]⟩ =
      none ∧
    numArgs ⟨[⟨false, 99, false⟩], true, [⟨true, 8, false⟩], [⟨⟨true, 8, false⟩, 1, none⟩]⟩ = 0 := by
  refine ⟨?_, ?_, ?_⟩
  · exact variadic_not_a_dependency.2.2.2.2 ⟨[], [], ⟨[], []⟩⟩
      ⟨[⟨false, 99, false⟩], true, [⟨true, 8, false⟩], [⟨⟨true, 8, false⟩, 1, none⟩]⟩
      ⟨true, 8, false⟩ rfl rfl rfl rfl rfl
  · exact variadic_not_a_dependency.2.2.2.1 ⟨[], [], ⟨[], []⟩⟩ []
      ⟨[⟨false, 99, false⟩], true, [⟨true, 8, false⟩], [⟨⟨true, 8, false⟩, 1, none⟩]⟩
      rfl rfl rfl
  · exact variadic_not_a_dependency.1
      ⟨[⟨false, 99, false⟩], true, [⟨true, 8, false⟩], [⟨⟨true, 8, false⟩, 1, none⟩]⟩ rfl

/-! ### Duplicate producers and shadowed re-production (C4) -/

/-- Appending a vertex entry does not disturb an existing entry. -/
theorem findVert_append_of_some (vs : List (GoType × Option Ctor))
    (e : GoType × Option Ctor) (k : GoType) (p : Option Ctor)
    (h : findVert vs k = some p) : findVert (vs ++ [e]) k = some p := by
  simp only [findVert, List.find?_append] at h ⊢
  cases hf : vs.find? (fun q => q.1 == k) with
  | none => rw [hf] at h; exact Option.noConfusion h
  | some q => rw [hf] at h; simpa using h

/-- `GetValue` is a function of the vertex list alone. -/
theorem getValue_congr_verts (g g' : CDag) (t : GoType) (h : g.verts = g'.verts) :
    CDag.GetValue g t = CDag.GetValue g' t := by
  unfold CDag.GetValue findVert
  rw [h]

/-- A registered payload survives `AddVertex` for any key. -/
theorem getValue_addVertex (g : CDag) (k t : GoType) (p : Option Ctor) (c0 : Ctor)
    (h : CDag.GetValue g t = some c0) :
    CDag.GetValue (CDag.AddVertex g k p).2 t = some c0 := by
  unfold CDag.GetValue at h
  cases hf : findVert g.verts t with
  | none => rw [hf] at h; exact Option.noConfusion h
  | some q =>
    rw [hf] at h
    have hq : q = some c0 := h
    unfold CDag.AddVertex
    by_cases hk : (findVert g.verts k).isSome
    · rw [if_pos hk]
      unfold CDag.GetValue
      rw [hf, hq]
    · rw [if_neg hk]
      show (match findVert (g.verts ++ [(k, p)]) t with | some p => p | none => none) = some c0
      rw [findVert_append_of_some g.verts (k, p) t q hf]
      exact hq

/-- `SetValue` at a different key does not disturb an entry. -/
theorem findVert_setValue_ne (vs : List (GoType × Option Ctor)) (k : GoType)
    (c : Ctor) (t : GoType) (hne : t ≠ k) :
    findVert (vs.map (fun p => if p.1 == k then (p.1, some c) else p)) t =
      findVert vs t := by
  induction vs with
  | nil => rfl
  | cons a vs ih =>
    simp only [List.map_cons, findVert, List.find?]
    by_cases hak : a.1 = k
    · have : (a.1 == k) = true := by simp [hak]
      have hat : (a.1 == t) = false := by simp [hak]; exact fun h => hne (h ▸ hak ▸ rfl)
      simp only [this, if_true]
      simp only [List.find?, hat]
      simpa [findVert, List.find?, hat] using ih
    · have : (a.1 == k) = false := by simp [hak]
      simp only [this, if_false]
      cases hat : (a.1 == t) with
      | true => simp [List.find?, hat]
      | false => simpa [findVert, List.find?, hat] using ih

/-- A registered payload at `t` survives `SetValue` at another key. -/
theorem getValue_setValue_ne (g : CDag) (k : GoType) (c : Ctor) (t : GoType)
    (hne : t ≠ k) (c0 : Ctor) (h : CDag.GetValue g t = some c0) :
    CDag.GetValue (CDag.SetValue g k c) t = some c0 := by
  unfold CDag.GetValue at h ⊢
  unfold CDag.SetValue
  simp only
  rw [findVert_setValue_ne g.verts k c t hne]
  exact h

/-- `AddDependencies` never changes the vertex list. -/
theorem verts_addDependencies (g : CDag) (t d : GoType) :
    (CDag.AddDependencies g t d).2.verts = g.verts := by
  simp only [CDag.AddDependencies]
  repeat' split
  all_goals rfl

/-- A registered payload survives the dependency loop of `Add`. -/
theorem getValue_addDepsLoop (tk : GoType) (ds : List GoType) (g : CDag)
    (t : GoType) (c0 : Ctor) (h : CDag.GetValue g t = some c0) :
    CDag.GetValue (addDepsLoop tk g ds).2 t = some c0 := by
  induction ds generalizing g with
  | nil => simpa [addDepsLoop] using h
  | cons d ds ih =>
    simp only [addDepsLoop]
    have h1 : CDag.GetValue (CDag.AddVertex g d none).2 t = some c0 :=
      getValue_addVertex g d t none c0 h
    have h2 : CDag.GetValue (CDag.AddDependencies (CDag.AddVertex g d none).2 tk d).2 t
        = some c0 := by
      rw [getValue_congr_verts _ _ t
        (verts_addDependencies (CDag.AddVertex g d none).2 tk d)]
      exact h1
    cases hAD : CDag.AddDependencies (CDag.AddVertex g d none).2 tk d with
    | mk r g2 =>
      rw [hAD] at h2
      cases r with
      | some e => simpa using h2
      | none => simpa using ih g2 h2

/-- `GetValue` succeeding means the vertex entry is present. -/
theorem findVert_isSome_of_getValue (g : CDag) (t : GoType) (c0 : Ctor)
    (h : CDag.GetValue g t = some c0) : (findVert g.verts t).isSome := by
  unfold CDag.GetValue at h
  cases hf : findVert g.verts t with
  | none => rw [hf] at h; exact Option.noConfusion h
  | some q => simp

/-- The output loop of `Add` fails whenever some pending non-error
output's normalized type already has a registered producer. -/
theorem addOutsLoop_dup (ctr c0 : Ctor) (deps : List GoType) (tb : GoType) :
    ∀ (todo processed : List GoType) (g : CDag),
      (∃ t ∈ todo, GoBase t = tb ∧ (GoBase t).isErr = false) →
      CDag.GetValue g tb = some c0 →
      (addOutsLoop ctr deps g processed todo).1.isSome := by
  intro todo
  induction todo with
  | nil =>
    rintro _ _ ⟨t, ht, _⟩
    exact absurd ht (List.not_mem_nil t)
  | cons t rest ih =>
    rintro processed g ⟨t', ht', htb, hterr⟩ hval
    by_cases herr : (GoBase t).isErr
    · have ht'r : t' ∈ rest := by
        rcases List.mem_cons.mp ht' with h | h
        · rw [← h, hterr] at herr; exact absurd herr (by simp)
        · exact h
      simp only [addOutsLoop, herr]
      simpa using ih (processed ++ [t]) g ⟨t', ht'r, htb, hterr⟩ hval
    · by_cases heq : GoBase t = tb
      · -- the pending output collides with the registered producer
        have hsome : (findVert g.verts (GoBase t)).isSome := by
          rw [heq]; exact findVert_isSome_of_getValue g tb c0 hval
        have hgv : CDag.GetValue g (GoBase t) = some c0 := by rw [heq]; exact hval
        simp only [addOutsLoop, herr, CDag.AddVertex, hsome, if_true, hgv]
        simp
      · have ht'r : t' ∈ rest := by
          rcases List.mem_cons.mp ht' with h | h
          · exact absurd (h ▸ htb) heq
          · exact h
        have step : ∀ g1 : CDag, CDag.GetValue g1 tb = some c0 →
            (match addDepsLoop (GoBase t) g1 deps with
              | (some e, g2) => (some e, g2)
              | (none, g2) => addOutsLoop ctr deps g2 (processed ++ [t]) rest).1.isSome := by
          intro g1 hg1
          cases hdl : addDepsLoop (GoBase t) g1 deps with
          | mk r g2 =>
            cases r with
            | some e => simp
            | none =>
              have : CDag.GetValue g2 tb = some c0 := by
                have := getValue_addDepsLoop (GoBase t) deps g1 tb c0 hg1
                rw [hdl] at this
                exact this
              simpa using ih (processed ++ [t]) g2 ⟨t', ht'r, htb, hterr⟩ this
        by_cases hsome : (findVert g.verts (GoBase t)).isSome
        · cases hgv : CDag.GetValue g (GoBase t) with
          | some c1 =>
            simp only [addOutsLoop, herr, CDag.AddVertex, hsome, if_true, hgv]
            simp
          | none =>
            have hg1 : CDag.GetValue (CDag.SetValue g (GoBase t) ctr) tb = some c0 :=
              getValue_setValue_ne g (GoBase t) ctr tb (fun h => heq h.symm) c0 hval
            simp only [addOutsLoop, herr, CDag.AddVertex, hsome, if_true, hgv]
            simpa using step _ hg1
        · have hg1 : CDag.GetValue (CDag.AddVertex g (GoBase t) (some ctr)).2 tb = some c0 :=
            getValue_addVertex g (GoBase t) tb (some ctr) c0 hval
          simp only [addOutsLoop, herr, CDag.AddVertex, hsome, if_false] at hg1 ⊢
          simpa using step _ hg1

/-- Shadowed types never consult the parent chain. -/
theorem getC_shadowed (f : Frame) (anc : List Frame) (t : GoType)
    (h : t ∈ f.dupes) : getC f anc t = localGet f t := by
  cases anc with
  | nil => rfl
  | cons p panc => simp [getC, checkParent_of_shadowed f (p :: panc) t h]

/-- C4: duplicate-producer handling.
1. Registering a constructor one of whose (non-error) produced types
   already has a producer registered in this same container always
   fails.
2. Registering a producer for a type in a child container whose shadow
   set (`dupes`) holds that type succeeds — through `Add` and through
   the subsequent `Create` — for every ancestor chain whatsoever, in
   particular when an ancestor already provides the type; the value is
   stored in the child's own object table. -/
theorem duplicate_producer_and_shadow :
    (∀ (f : Frame) (c c0 : Ctor) (t : GoType),
      t ∈ effOuts c → (GoBase t).isErr = false →
      CDag.GetValue f.dag (GoBase t) = some c0 →
      (addC f c).1.isSome) ∧
    (∀ (anc : List Frame) (dupes : List GoType) (t : GoType) (v : Val),
      v.ty = t → t.isErr = false → GoBase t ∈ dupes →
      (addC ⟨[], dupes, ⟨[], []⟩⟩ ⟨[], false, [t], [v]⟩).1 = none ∧
      (createC (addC ⟨[], dupes, ⟨[], []⟩⟩ ⟨[], false, [t], [v]⟩).2 anc).1 = none ∧
      lookupTable ((createC (addC ⟨[], dupes, ⟨[], []⟩⟩ ⟨[], false, [t], [v]⟩).2 anc).2).objTable
        (GoBase t).key = some v) := by
  constructor
  · intro f c c0 t ht hterr hclaimed
    have hne : effOuts c ≠ [] := fun h => by rw [h] at ht; exact absurd ht (List.not_mem_nil t)
    unfold addC
    rw [if_neg hne]
    cases hd : depsOf (c.ins.take (numArgs c)) with
    | error e => simp
    | ok deps =>
      simpa using addOutsLoop_dup c c0 deps (GoBase t) (effOuts c) [] f.dag
        ⟨t, ht, rfl, hterr⟩ hclaimed
  · intro anc dupes t v hv hterr hdup
    have hbase : (GoBase t).isErr = t.isErr := rfl
    have haddEq : addC ⟨[], dupes, ⟨[], []⟩⟩ ⟨[], false, [t], [v]⟩ =
        (none, ⟨[], dupes, ⟨[(GoBase t, some ⟨[], false, [t], [v]⟩)], []⟩⟩) := by
      simp [addC, effOuts, hterr, numArgs, depsOf, addOutsLoop, CDag.AddVertex,
        findVert, addDepsLoop, hbase]
    rw [haddEq]
    have hloc : getC ⟨[], dupes, ⟨[(GoBase t, some ⟨[], false, [t], [v]⟩)], []⟩⟩ anc (GoBase t) =
        .error eNotFound :=
      getC_shadowed _ anc (GoBase t) hdup
    refine ⟨rfl, ?_, ?_⟩
    · simp [createC, CDag.sortKeys, topoSort, topoAux, noIncoming, createLoop,
        CDag.GetValue, findVert, buildArgs, numArgs, resolveAll, checkErrorRets,
        hv, hterr, createProcessRets, hloc, hv]
    · simp [createC, CDag.sortKeys, topoSort, topoAux, noIncoming, createLoop,
        CDag.GetValue, findVert, buildArgs, numArgs, resolveAll, checkErrorRets,
        hv, hterr, createProcessRets, hloc, cacheVals, tableInsert, lookupTable,
        List.find?]

/-- Witness for C4 at concrete inputs: re-registering a producer for
type key 3 in one container fails; a child container shadowing type
key 3 registers and creates its own producer for it even though its
parent provides the type. -/
theorem duplicate_producer_and_shadow_witness :
    (addC (addC ⟨[], [], ⟨[], []⟩⟩ ⟨[], false, [⟨false, 3, false⟩], [⟨⟨false, 3, false⟩, 1, none⟩]⟩).2
        ⟨[], false, [⟨false, 3, false⟩], [⟨⟨false, 3, false⟩, 2, none⟩]⟩).1.isSome ∧
    (addC ⟨[], [⟨false, 3, false⟩], ⟨[], []⟩⟩
        ⟨[], false, [⟨false, 3, false⟩], [⟨⟨false, 3, false⟩, 2, none⟩]⟩).1 = none ∧
    (createC (addC ⟨[], [⟨false, 3, false⟩], ⟨[], []⟩⟩
        ⟨[], false, [⟨false, 3, false⟩], [⟨⟨false, 3, false⟩, 2, none⟩]⟩).2 [parentFrame]).1 =
      none := by
  refine ⟨?_, ?_, ?_⟩
  · exact duplicate_producer_and_shadow.1 _
      ⟨[], false, [⟨false, 3, false⟩], [⟨⟨false, 3, false⟩, 2, none⟩]⟩
      ⟨[], false, [⟨false, 3, false⟩], [⟨⟨false, 3, false⟩, 1, none⟩]⟩
      ⟨false, 3, false⟩ (by decide) rfl (by decide)
  · exact (duplicate_producer_and_shadow.2 [parentFrame] [⟨false, 3, false⟩]
      ⟨false, 3, false⟩ ⟨⟨false, 3, false⟩, 2, none⟩ rfl rfl (by decide)).1
  · exact (duplicate_producer_and_shadow.2 [parentFrame] [⟨false, 3, false⟩]
      ⟨false, 3, false⟩ ⟨⟨false, 3, false⟩, 2, none⟩ rfl rfl (by decide)).2.1

/-! ## The DAG of `src/di/dag.go`

Keys are embedded as `Nat` (the Go `Key` is `interface{}`), vertex
payloads as `Option Nat`.  The backing `graph.Graph` of the library is
embedded as the list of edges (`MakeEdge(dst, src)` prepends `(dst, src)`,
`RemoveEdge` erases it), and the vertex map as an insertion-ordered
association list. -/

structure Dag where
  verts : List (Nat × Option Nat)
  edges : List (Nat × Nat)
deriving DecidableEq

/-- The vertex keys, in insertion order. -/
def Dag.keys (g : Dag) : List Nat := g.verts.map Prod.fst

/-- `if _, ok := dg.vertices[key]; ok`. -/
def Dag.hasKey (g : Dag) (k : Nat) : Bool := g.keys.contains k

/-- `dag.NewVertex` (dag.go lines 49-57): reject an existing key, else
insert the vertex. -/
def newVertex (g : Dag) (k : Nat) (v : Option Nat) : Option Err × Dag :=
  if g.hasKey k then (some eDupVertex, g)
  else (none, { g with verts := g.verts ++ [(k, v)] })

/-- `isAcyclic` (dag.go lines 112-123) applied to the dag's state. -/
def isAcyclicD (g : Dag) : Bool := acyclicSCC g.keys g.edges

/-- `dag.addEdge` (dag.go lines 73-95): both endpoints must exist and be
distinct; the edge `dependency → node` is inserted tentatively, and if
the graph stops being acyclic the edge is removed again before the error
returns. -/
def addEdge (g : Dag) (node dep : Nat) : Option Err × Dag :=
  if ¬ g.hasKey node then (some eUnknownVertex, g)
  else if ¬ g.hasKey dep then (some eUnknownVertex, g)
  else if node == dep then (some eSelfDep, g)
  else
    let g' : Dag := { g with edges := (dep, node) :: g.edges }
    if ¬ isAcyclicD g' then (some eCycle, { g' with edges := g'.edges.erase (dep, node) })
    else (none, g')

/-- `dag.Edge` (dag.go lines 60-67): insert one edge per dependency,
stopping at the first error. -/
def edgeMany (g : Dag) (node : Nat) : List Nat → Option Err × Dag
  | [] => (none, g)
  | d :: ds =>
    match addEdge g node d with
    | (some e, g1) => (some e, g1)
    | (none, g1) => edgeMany g1 node ds

/-- `dag.Sort` (dag.go lines 100-109): the topological sort of the
library, modelled by `topoSort` (see above); the source pairs each key
with its payload, which does not affect the order. -/
def sortD (g : Dag) : List Nat := topoSort g.edges g.keys

/-- The states of the dag reachable from `NewDAG` through its
operations (`NewVertex`, and `Edge`, which iterates `addEdge`). -/
inductive ReachableDag : Dag → Prop
  | init : ReachableDag ⟨[], []⟩
  | vertex (g : Dag) (k : Nat) (v : Option Nat) :
      ReachableDag g → ReachableDag (newVertex g k v).2
  | edge (g : Dag) (n d : Nat) :
      ReachableDag g → ReachableDag (addEdge g n d).2

/-- Structural invariants of reachable dag states: distinct keys, and
every edge runs between two distinct existing keys. -/
def GoodDag (g : Dag) : Prop :=
  g.keys.Nodup ∧ ∀ e ∈ g.edges, e.1 ∈ g.keys ∧ e.2 ∈ g.keys ∧ e.1 ≠ e.2

/-- The edge relation of an edge list. -/
def edgeRel (es : List (Nat × Nat)) (a b : Nat) : Prop := (a, b) ∈ es

/-- Mathematical acyclicity: no vertex lies on a nontrivial cycle. -/
def NoCycle (es : List (Nat × Nat)) : Prop :=
  ∀ v, ¬ Relation.TransGen (edgeRel es) v v

/-- C3: every failing `addEdge` call — unknown endpoint, self
dependency, or an edge that would close a cycle — returns an error and
leaves the vertex and edge sets exactly as they were. -/
theorem addEdge_error_no_mutation (g : Dag) (n d : Nat)
    (h : ¬ g.hasKey n ∨ ¬ g.hasKey d ∨ n = d ∨
      isAcyclicD { g with edges := (d, n) :: g.edges } = false) :
    (addEdge g n d).1.isSome ∧ (addEdge g n d).2 = g := by
  by_cases hn : g.hasKey n
  · by_cases hd : g.hasKey d
    · by_cases hnd : n = d
      · have : (n == d) = true := by simp [hnd]
        simp [addEdge, hn, hd, this]
      · have hnd' : (n == d) = false := by simp [hnd]
        have hcyc : isAcyclicD { g with edges := (d, n) :: g.edges } = false := by
          rcases h with h | h | h | h
          · exact absurd hn h
          · exact absurd hd h
          · exact absurd h hnd
          · exact h
        simp [addEdge, hn, hd, hnd', hcyc, List.erase_cons_head]
    · simp [addEdge, hn, hd]
  · simp [addEdge, hn]

/-- A concrete dag with vertices 1, 2 and the edge `1 → 2`. -/
def dagTwo : Dag :=
  (addEdge (newVertex (newVertex ⟨[], []⟩ 1 none).2 2 none).2 2 1).2

/-- Witness for C3 at concrete inputs: on `dagTwo`, adding the reverse
edge (closing a 2-cycle), a self edge, and an edge to a missing vertex
each fail and leave the dag unchanged. -/
theorem addEdge_error_no_mutation_witness :
    ((addEdge dagTwo 1 2).1.isSome ∧ (addEdge dagTwo 1 2).2 = dagTwo) ∧
    ((addEdge dagTwo 1 1).1.isSome ∧ (addEdge dagTwo 1 1).2 = dagTwo) ∧
    ((addEdge dagTwo 1 7).1.isSome ∧ (addEdge dagTwo 1 7).2 = dagTwo) := by
  refine ⟨?_, ?_, ?_⟩
  · exact addEdge_error_no_mutation dagTwo 1 2 (by decide)
  · exact addEdge_error_no_mutation dagTwo 1 1 (by decide)
  · exact addEdge_error_no_mutation dagTwo 1 7 (by decide)

/-! ### The reachability bridge

`reaches` (the bounded executable search) computes exactly the
reflexive-transitive closure of the edge relation; the fuel
`es.length` suffices because a path that repeats no vertex makes at
most one step per edge target. -/

/-- `IsPath r u l v`: `l` lists the successive vertices after `u` on an
`r`-path from `u` that ends at `v`. -/
def IsPath (r : Nat → Nat → Prop) : Nat → List Nat → Nat → Prop
  | u, [], v => u = v
  | u, a :: l, v => r u a ∧ IsPath r a l v

theorem isPath_iff_reflTransGen (r : Nat → Nat → Prop) (u v : Nat) :
    (∃ l, IsPath r u l v) ↔ Relation.ReflTransGen r u v := by
  constructor
  · rintro ⟨l, hl⟩
    induction l generalizing u with
    | nil => exact hl ▸ .refl
    | cons a l ih => exact .head hl.1 (ih a hl.2)
  · intro h
    induction h using Relation.ReflTransGen.head_induction_on with
    | refl => exact ⟨[], rfl⟩
    | head hr _ ih =>
      obtain ⟨l, hl⟩ := ih
      exact ⟨_ :: l, hr, hl⟩

theorem isPath_suffix (r : Nat → Nat → Prop) :
    ∀ (l₁ l₂ : List Nat) (x u v : Nat),
      IsPath r u (l₁ ++ x :: l₂) v → IsPath r x l₂ v := by
  intro l₁
  induction l₁ with
  | nil => exact fun l₂ x u v h => h.2
  | cons a l₁ ih => exact fun l₂ x u v h => ih l₂ x a v h.2

theorem isPath_prefix (r : Nat → Nat → Prop) :
    ∀ (l₁ l₂ : List Nat) (x u v : Nat),
      IsPath r u (l₁ ++ x :: l₂) v → IsPath r u (l₁ ++ [x]) x := by
  intro l₁
  induction l₁ with
  | nil => exact fun l₂ x u v h => ⟨h.1, rfl⟩
  | cons a l₁ ih => exact fun l₂ x u v h => ⟨h.1, ih l₂ x a v h.2⟩

theorem isPath_glue (r : Nat → Nat → Prop) :
    ∀ (l₁ l₂ : List Nat) (x u v : Nat),
      IsPath r u (l₁ ++ [x]) x → IsPath r x l₂ v → IsPath r u (l₁ ++ x :: l₂) v := by
  intro l₁
  induction l₁ with
  | nil => exact fun l₂ x u v h1 h2 => ⟨h1.1, h2⟩
  | cons a l₁ ih => exact fun l₂ x u v h1 h2 => ⟨h1.1, ih l₂ x a v h1.2 h2⟩

/-- A list that is not duplicate-free splits around a repeated element. -/
theorem exists_dup_split (l : List Nat) (h : ¬ l.Nodup) :
    ∃ x l₁ l₂ l₃, l = l₁ ++ x :: l₂ ++ x :: l₃ := by
  induction l with
  | nil => exact absurd List.nodup_nil h
  | cons a l ih =>
    by_cases ha : a ∈ l
    · obtain ⟨s, t, hst⟩ := List.append_of_mem ha
      exact ⟨a, [], s, t, by simp [hst]⟩
    · have : ¬ l.Nodup := fun hn => h (List.nodup_cons.mpr ⟨ha, hn⟩)
      obtain ⟨x, l₁, l₂, l₃, hl⟩ := ih this
      exact ⟨x, a :: l₁, l₂, l₃, by simp [hl]⟩

/-- Every path shortens to one visiting no vertex twice. -/
theorem isPath_dedup (r : Nat → Nat → Prop) :
    ∀ (n : Nat) (l : List Nat) (u v : Nat), l.length ≤ n → IsPath r u l v →
      ∃ l', l'.Nodup ∧ (∀ y ∈ l', y ∈ l) ∧ IsPath r u l' v := by
  intro n
  induction n with
  | zero =>
    intro l u v hl hp
    have : l = [] := List.eq_nil_of_length_eq_zero (Nat.le_zero.mp hl)
    subst this
    exact ⟨[], List.nodup_nil, fun y hy => hy, hp⟩
  | succ n ih =>
    intro l u v hl hp
    by_cases hnd : l.Nodup
    · exact ⟨l, hnd, fun y hy => hy, hp⟩
    · obtain ⟨x, l₁, l₂, l₃, rfl⟩ := exists_dup_split l hnd
      have hp1 : IsPath r u (l₁ ++ x :: (l₂ ++ x :: l₃)) v := by
        simpa [List.append_assoc, List.cons_append] using hp
      have hpre : IsPath r u (l₁ ++ [x]) x :=
        isPath_prefix r l₁ (l₂ ++ x :: l₃) x u v hp1
      have hsuf : IsPath r x l₃ v := by
        have hp' : IsPath r u ((l₁ ++ x :: l₂) ++ x :: l₃) v := by
          simpa [List.append_assoc, List.cons_append] using hp
        exact isPath_suffix r (l₁ ++ x :: l₂) l₃ x u v hp'
      have hglue : IsPath r u (l₁ ++ x :: l₃) v := isPath_glue r l₁ l₃ x u v hpre hsuf
      have hlen : (l₁ ++ x :: l₃).length ≤ n := by
        simp only [List.length_append, List.length_cons] at hl ⊢
        omega
      obtain ⟨l', h1, h2, h3⟩ := ih (l₁ ++ x :: l₃) u v hlen hglue
      refine ⟨l', h1, ?_, h3⟩
      intro y hy
      have hm := h2 y hy
      simp only [List.mem_append, List.mem_cons] at hm ⊢
      tauto

theorem reachesB_refl (es : List (Nat × Nat)) (n u : Nat) :
    reachesB es n u u = true := by
  cases n <;> simp [reachesB]

theorem reachesB_sound (es : List (Nat × Nat)) :
    ∀ (n u v : Nat), reachesB es n u v = true →
      Relation.ReflTransGen (edgeRel es) u v := by
  intro n
  induction n with
  | zero =>
    intro u v h
    simp only [reachesB, beq_iff_eq] at h
    exact h ▸ .refl
  | succ n ih =>
    intro u v h
    simp only [reachesB, Bool.or_eq_true, beq_iff_eq, List.any_eq_true,
      Bool.and_eq_true] at h
    rcases h with h | ⟨e, he, h1, h2⟩
    · exact h ▸ .refl
    · cases e with
      | mk a b =>
        have ha : a = u := by simpa using h1
        subst ha
        exact .head (show edgeRel es a b from he) (ih b v h2)

theorem reachesB_mono (es : List (Nat × Nat)) :
    ∀ (n m : Nat), n ≤ m → ∀ u v, reachesB es n u v = true →
      reachesB es m u v = true := by
  intro n
  induction n with
  | zero =>
    intro m _ u v h
    simp only [reachesB, beq_iff_eq] at h
    exact h ▸ reachesB_refl es m v
  | succ n ih =>
    intro m hm u v h
    obtain ⟨m', rfl⟩ : ∃ m', m = m' + 1 := ⟨m - 1, by omega⟩
    simp only [reachesB, Bool.or_eq_true, List.any_eq_true, Bool.and_eq_true] at h ⊢
    rcases h with h | ⟨e, he, h1, h2⟩
    · exact Or.inl h
    · exact Or.inr ⟨e, he, h1, ih m' (by omega) _ _ h2⟩

theorem isPath_reachesB (es : List (Nat × Nat)) :
    ∀ (l : List Nat) (u v : Nat), IsPath (edgeRel es) u l v →
      reachesB es l.length u v = true := by
  intro l
  induction l with
  | nil =>
    intro u v h
    simp only [IsPath] at h
    simp [reachesB, h]
  | cons a l ih =>
    intro u v h
    simp only [reachesB, List.length_cons, Bool.or_eq_true, List.any_eq_true,
      Bool.and_eq_true]
    exact Or.inr ⟨(u, a), h.1, by simp, ih a v h.2⟩

theorem isPath_mem_targets (es : List (Nat × Nat)) :
    ∀ (l : List Nat) (u v : Nat), IsPath (edgeRel es) u l v →
      ∀ y ∈ l, y ∈ es.map Prod.snd := by
  intro l
  induction l with
  | nil => intro u v _ y hy; exact absurd hy (List.not_mem_nil y)
  | cons a l ih =>
    intro u v h y hy
    rcases List.mem_cons.mp hy with rfl | hy
    · exact List.mem_map.mpr ⟨(u, y), h.1, rfl⟩
    · exact ih a v h.2 y hy

/-- Completeness of the bounded search at fuel `es.length`. -/
theorem reaches_complete (es : List (Nat × Nat)) (u v : Nat)
    (h : Relation.ReflTransGen (edgeRel es) u v) : reaches es u v = true := by
  obtain ⟨l, hl⟩ := (isPath_iff_reflTransGen _ u v).mpr h
  obtain ⟨l', hnd, hsub, hp⟩ := isPath_dedup (edgeRel es) l.length l u v le_rfl hl
  have htgt : l' ⊆ es.map Prod.snd := fun y hy =>
    isPath_mem_targets es l u v hl y (hsub y hy)
  have hlen : l'.length ≤ es.length := by
    have := (hnd.subperm htgt).length_le
    simpa using this
  exact reachesB_mono es l'.length es.length hlen u v (isPath_reachesB es l' u v hp)

/-- Soundness of the bounded search. -/
theorem reaches_sound (es : List (Nat × Nat)) (u v : Nat)
    (h : reaches es u v = true) : Relation.ReflTransGen (edgeRel es) u v :=
  reachesB_sound es es.length u v h

theorem reaches_iff (es : List (Nat × Nat)) (u v : Nat) :
    reaches es u v = true ↔ Relation.ReflTransGen (edgeRel es) u v :=
  ⟨reaches_sound es u v, reaches_complete es u v⟩

/-! ### Strongly connected components and acyclicity (C7) -/

theorem two_mem_length_ge_two {l : List Nat} {a b : Nat} (ha : a ∈ l) (hb : b ∈ l)
    (hab : a ≠ b) : 2 ≤ l.length := by
  match l with
  | [] => exact absurd ha (List.not_mem_nil a)
  | [x] =>
    simp only [List.mem_singleton] at ha hb
    exact absurd (ha.trans hb.symm) hab
  | x :: y :: t => simp only [List.length_cons]; omega

theorem nodup_length_two_distinct {l : List Nat} (hnd : l.Nodup) (h : 1 < l.length) :
    ∃ a b, a ∈ l ∧ b ∈ l ∧ a ≠ b := by
  match l with
  | [] => simp at h
  | [x] => simp at h
  | x :: y :: t =>
    have hx := (List.nodup_cons.mp hnd).1
    exact ⟨x, y, by simp, by simp, fun he => hx (he ▸ List.mem_cons_self y t)⟩

/-- Two mutually reachable distinct vertices lie on a cycle. -/
theorem cycle_of_mutual (es : List (Nat × Nat)) (v w : Nat) (hne : w ≠ v)
    (h1 : reaches es v w = true) (h2 : reaches es w v = true) :
    Relation.TransGen (edgeRel es) v v := by
  have r1 := reaches_sound es v w h1
  have r2 := reaches_sound es w v h2
  rcases Relation.reflTransGen_iff_eq_or_transGen.mp r1 with he | ht
  · exact absurd he hne
  · exact Relation.TransGen.trans_left ht r2

/-- The check of `isAcyclic` is correct on well-formed graphs: all
strongly connected components are singletons iff no vertex lies on a
nontrivial cycle.  (Well-formedness matters: duplicate keys or a
self-loop would break the equivalence.) -/
theorem acyclicSCC_iff_noCycle (keys : List Nat) (es : List (Nat × Nat))
    (hnd : keys.Nodup)
    (hcl : ∀ e ∈ es, e.1 ∈ keys ∧ e.2 ∈ keys ∧ e.1 ≠ e.2) :
    acyclicSCC keys es = true ↔ NoCycle es := by
  constructor
  · intro hac v htg
    obtain ⟨w, hvw, hwv⟩ := Relation.TransGen.head'_iff.mp htg
    obtain ⟨h1, h2, h3⟩ := hcl (v, w) hvw
    have hrvw : reaches es v w = true :=
      reaches_complete es v w (Relation.ReflTransGen.single hvw)
    have hrwv : reaches es w v = true := reaches_complete es w v hwv
    have hv : v ∈ sccOf keys es v := by
      simp [sccOf, List.mem_filter, h1, reaches, reachesB_refl]
    have hw : w ∈ sccOf keys es v := by
      simp [sccOf, List.mem_filter, h2, hrvw, hrwv]
    have hlen : 2 ≤ (sccOf keys es v).length :=
      two_mem_length_ge_two hv hw h3
    simp only [acyclicSCC, List.all_eq_true] at hac
    have := hac v h1
    simp only [gt_iff_lt, Bool.not_eq_eq_eq_not, Bool.not_true, decide_eq_false_iff_not,
      not_lt] at this
    omega
  · intro hnc
    simp only [acyclicSCC, List.all_eq_true]
    intro v hv
    by_contra hgt
    have hlen : 1 < (sccOf keys es v).length := by
      simpa using hgt
    obtain ⟨a, b, ha, hb, hab⟩ :=
      nodup_length_two_distinct (hnd.filter _) hlen
    have hpa := (List.mem_filter.mp ha).2
    have hpb := (List.mem_filter.mp hb).2
    simp only [Bool.and_eq_true] at hpa hpb
    rcases Classical.em (a = v) with rfl | hav
    · exact hnc a (cycle_of_mutual es a b (fun he => hab he.symm) hpb.1 hpb.2)
    · exact hnc v (cycle_of_mutual es v a hav hpa.1 hpa.2)

/-! ### Invariants of reachable dag states -/

theorem reachesB_no_outgoing (es : List (Nat × Nat)) (k : Nat)
    (hk : ∀ e ∈ es, e.1 ≠ k) (n v : Nat) (h : reachesB es n k v = true) : k = v := by
  cases n with
  | zero => simpa [reachesB] using h
  | succ n =>
    simp only [reachesB, Bool.or_eq_true, beq_iff_eq, List.any_eq_true,
      Bool.and_eq_true] at h
    rcases h with h | ⟨e, he, h1, h2⟩
    · exact h
    · exact absurd (by simpa using h1) (hk e he)

theorem reachesB_no_incoming (es : List (Nat × Nat)) (k : Nat)
    (hk : ∀ e ∈ es, e.2 ≠ k) : ∀ (n v : Nat), reachesB es n v k = true → v = k := by
  intro n
  induction n with
  | zero => intro v h; simpa [reachesB] using h
  | succ n ih =>
    intro v h
    simp only [reachesB, Bool.or_eq_true, beq_iff_eq, List.any_eq_true,
      Bool.and_eq_true] at h
    rcases h with h | ⟨e, he, h1, h2⟩
    · exact h
    · exact absurd (ih e.2 h2) (hk e he)

/-- Appending a fresh, unconnected vertex preserves the acyclicity
check. -/
theorem acyclicSCC_snoc_vertex (keys : List Nat) (es : List (Nat × Nat)) (k : Nat)
    (hnotin : k ∉ keys)
    (hcl : ∀ e ∈ es, e.1 ∈ keys ∧ e.2 ∈ keys ∧ e.1 ≠ e.2)
    (h : acyclicSCC keys es = true) : acyclicSCC (keys ++ [k]) es = true := by
  have hsrc : ∀ e ∈ es, e.1 ≠ k := fun e he h1 => hnotin (h1 ▸ (hcl e he).1)
  have htgt : ∀ e ∈ es, e.2 ≠ k := fun e he h2 => hnotin (h2 ▸ (hcl e he).2.1)
  simp only [acyclicSCC, List.all_eq_true, List.mem_append, List.mem_singleton] at h ⊢
  intro v hv
  rcases hv with hv | rfl
  · have hvk : v ≠ k := fun he => hnotin (he ▸ hv)
    have hfk : reaches es k v = false := by
      cases hr : reaches es k v with
      | false => rfl
      | true =>
        exact absurd (reachesB_no_outgoing es k hsrc es.length v hr)
          (fun he => hvk he.symm)
    have hscc : sccOf (keys ++ [k]) es v = sccOf keys es v := by
      simp only [sccOf, List.filter_append]
      have : List.filter (fun w => reaches es v w && reaches es w v) [k] = [] := by
        simp [List.filter, hfk]
      rw [this, List.append_nil]
    rw [hscc]
    exact h v hv
  · have hscc : sccOf (keys ++ [v]) es v = [v] := by
      simp only [sccOf, List.filter_append]
      have h1 : List.filter (fun w => reaches es v w && reaches es w v) keys = [] := by
        rw [List.filter_eq_nil_iff]
        intro w hw
        have hwk : w ≠ v := fun he => hnotin (he ▸ hw)
        cases hr : reaches es v w with
        | false => simp [hr]
        | true => exact absurd (reachesB_no_outgoing es v hsrc es.length w hr).symm hwk
      have h2 : List.filter (fun w => reaches es v w && reaches es w v) [v] = [v] := by
        simp [List.filter, reaches, reachesB_refl]
      rw [h1, h2, List.nil_append]
    rw [hscc]
    simp

/-- `hasKey` decides membership in the key list. -/
theorem hasKey_iff (g : Dag) (k : Nat) : g.hasKey k = true ↔ k ∈ g.keys := by
  simp [Dag.hasKey, List.contains, List.elem_iff]

/-- Every reachable dag state has distinct keys, edges between distinct
existing keys, and passes the acyclicity check. -/
theorem reachableDag_invariants (g : Dag) (hg : ReachableDag g) :
    GoodDag g ∧ isAcyclicD g = true := by
  induction hg with
  | init =>
    refine ⟨⟨List.nodup_nil, ?_⟩, rfl⟩
    intro e he
    exact absurd he (List.not_mem_nil e)
  | vertex g k v hR ih =>
    obtain ⟨⟨hnd, hcl⟩, hac⟩ := ih
    by_cases hk : g.hasKey k
    · simpa [newVertex, hk] using ⟨⟨hnd, hcl⟩, hac⟩
    · have hknot : k ∉ g.keys := fun hm => hk ((hasKey_iff g k).mpr hm)
      have hkeys : ({ g with verts := g.verts ++ [(k, v)] } : Dag).keys =
          g.keys ++ [k] := by
        simp [Dag.keys]
      simp only [newVertex, hk, Bool.false_eq_true, if_false]
      refine ⟨⟨?_, ?_⟩, ?_⟩
      · rw [hkeys]
        simp only [List.nodup_append, List.nodup_cons]
        exact ⟨hnd, by simp, by simpa [List.disjoint_singleton] using hknot⟩
      · intro e he
        rw [hkeys]
        obtain ⟨h1, h2, h3⟩ := hcl e he
        exact ⟨List.mem_append_left _ h1, List.mem_append_left _ h2, h3⟩
      · show acyclicSCC _ _ = true
        rw [hkeys]
        exact acyclicSCC_snoc_vertex g.keys g.edges k hknot hcl hac
  | edge g n d hR ih =>
    obtain ⟨⟨hnd, hcl⟩, hac⟩ := ih
    by_cases hn : g.hasKey n
    · by_cases hd : g.hasKey d
      · by_cases hnd' : n = d
        · have : (n == d) = true := by simp [hnd']
          simpa [addEdge, hn, hd, this] using ⟨⟨hnd, hcl⟩, hac⟩
        · have hbeq : (n == d) = false := by simp [hnd']
          by_cases hcyc : isAcyclicD { g with edges := (d, n) :: g.edges }
          · have hgoal : addEdge g n d = (none, { g with edges := (d, n) :: g.edges }) := by
              simp [addEdge, hn, hd, hbeq, hcyc]
            rw [hgoal]
            refine ⟨⟨hnd, ?_⟩, hcyc⟩
            intro e he
            rcases List.mem_cons.mp he with rfl | he
            · exact ⟨(hasKey_iff g d).mp hd, (hasKey_iff g n).mp hn,
                fun hh => hnd' hh.symm⟩
            · exact hcl e he
          · have h := addEdge_error_no_mutation g n d (by
              right; right; right; simpa using hcyc)
            rw [h.2]
            exact ⟨⟨hnd, hcl⟩, hac⟩
      · have h := addEdge_error_no_mutation g n d (Or.inr (Or.inl hd))
        rw [h.2]
        exact ⟨⟨hnd, hcl⟩, hac⟩
    · have h := addEdge_error_no_mutation g n d (Or.inl hn)
      rw [h.2]
      exact ⟨⟨hnd, hcl⟩, hac⟩

/-- C7: for every reachable dag state, the code's acyclicity check —
every strongly connected component has exactly one vertex — holds iff
the graph has no cycle; the check re-runs after each tentative edge
insertion and, on failure, the tentative edge is removed before the
error is returned (the state handed back is exactly the pre-call
state). -/
theorem acyclic_iff_singleton_sccs (g : Dag) (hg : ReachableDag g) :
    (isAcyclicD g = true ↔ ∀ v ∈ g.keys, (sccOf g.keys g.edges v).length = 1) ∧
    (isAcyclicD g = true ↔ NoCycle g.edges) ∧
    (∀ n d, g.hasKey n → g.hasKey d → n ≠ d →
      isAcyclicD { g with edges := (d, n) :: g.edges } = false →
      addEdge g n d = (some eCycle, g)) := by
  obtain ⟨⟨hnd, hcl⟩, _⟩ := reachableDag_invariants g hg
  refine ⟨?_, acyclicSCC_iff_noCycle g.keys g.edges hnd hcl, ?_⟩
  · unfold isAcyclicD
    simp only [acyclicSCC, List.all_eq_true]
    constructor
    · intro h v hv
      have h1 := h v hv
      simp only [gt_iff_lt, Bool.not_eq_eq_eq_not, Bool.not_true,
        decide_eq_false_iff_not, not_lt] at h1
      have h2 : v ∈ sccOf g.keys g.edges v := by
        simp [sccOf, List.mem_filter, hv, reaches, reachesB_refl]
      have h3 : 0 < (sccOf g.keys g.edges v).length := List.length_pos.mpr
        (fun he => by rw [he] at h2; exact absurd h2 (List.not_mem_nil v))
      omega
    · intro h v hv
      have := h v hv
      simp only [gt_iff_lt, Bool.not_eq_eq_eq_not, Bool.not_true,
        decide_eq_false_iff_not, not_lt]
      omega
  · intro n d hn hd hne hcyc
    have hbeq : (n == d) = false := by simp [hne]
    simp only [addEdge, hn, hd, hbeq, Bool.false_eq_true, if_false, not_true,
      not_false_eq_true, if_true, hcyc, List.erase_cons_head]

/-- Witness for C7 at a concrete input: `dagTwo` (vertices 1, 2, edge
`1 → 2`) is a reachable state; the theorem yields that it has no cycle,
and that inserting the closing edge `2 → 1` returns the cycle error with
the dag unchanged. -/
theorem acyclic_iff_singleton_sccs_witness :
    NoCycle dagTwo.edges ∧ addEdge dagTwo 1 2 = (some eCycle, dagTwo) := by
  have hreach : ReachableDag dagTwo :=
    .edge _ 2 1 (.vertex _ 2 none (.vertex _ 1 none .init))
  have h := acyclic_iff_singleton_sccs dagTwo hreach
  exact ⟨h.2.1.mp (by decide), h.2.2 1 2 (by decide) (by decide) (by decide) (by decide)⟩

/-! ### Topological-sort correctness (C6) -/

/-- In a cycle-free graph, every nonempty vertex list has a member with
no incoming edge from inside the list.  (Otherwise following incoming
edges forever would, by pigeonhole, revisit a vertex and close a
cycle.) -/
theorem exists_source (es : List (Nat × Nat)) (hnc : NoCycle es) :
    ∀ (rem : List Nat), rem ≠ [] → ∃ w ∈ rem, ∀ u ∈ rem, ¬ edgeRel es u w := by
  intro rem hne
  by_contra hall
  push_neg at hall
  obtain ⟨v0, hv0⟩ := List.exists_mem_of_ne_nil rem hne
  have hchoose : ∀ x : {y // y ∈ rem}, ∃ u : {y // y ∈ rem}, edgeRel es u.val x.val := by
    rintro ⟨x, hx⟩
    obtain ⟨u, hu, hedge⟩ := hall x hx
    exact ⟨⟨u, hu⟩, hedge⟩
  choose f hf using hchoose
  set seq : Nat → {y // y ∈ rem} := fun n => f^[n] ⟨v0, hv0⟩ with hseq
  have hstep : ∀ n, edgeRel es (seq (n + 1)).val (seq n).val := by
    intro n
    have h1 : seq (n + 1) = f (seq n) := Function.iterate_succ_apply' f n _
    rw [h1]
    exact hf (seq n)
  have hchain : ∀ n k, Relation.TransGen (edgeRel es) (seq (n + k + 1)).val (seq n).val := by
    intro n k
    induction k with
    | zero => exact .single (hstep n)
    | succ k ih => exact .head (hstep (n + k + 1)) ih
  have hmap : ∀ i : Fin (rem.length + 1), i ∈ Finset.univ →
      (seq i.val).val ∈ rem.toFinset := by
    intro i _
    simpa using (seq i.val).property
  have hcard : rem.toFinset.card < (Finset.univ : Finset (Fin (rem.length + 1))).card := by
    rw [Finset.card_fin]
    exact Nat.lt_succ_of_le (List.toFinset_card_le rem)
  obtain ⟨i, _, j, _, hij, heq⟩ :=
    Finset.exists_ne_map_eq_of_card_lt_of_maps_to hcard hmap
  have hvalne : i.val ≠ j.val := fun h => hij (Fin.ext h)
  rcases Nat.lt_or_ge i.val j.val with hlt | hge
  · have harith : i.val + (j.val - i.val - 1) + 1 = j.val := by omega
    have ht := hchain i.val (j.val - i.val - 1)
    rw [harith] at ht
    rw [heq] at ht
    exact hnc (seq j.val).val ht
  · have hlt : j.val < i.val := Nat.lt_of_le_of_ne hge (fun h => hvalne h.symm)
    have harith : j.val + (i.val - j.val - 1) + 1 = i.val := by omega
    have ht := hchain j.val (i.val - j.val - 1)
    rw [harith] at ht
    rw [← heq] at ht
    exact hnc (seq i.val).val ht

/-- The boolean `noIncoming` test means exactly "no incoming edge from
the remaining vertices". -/
theorem noIncoming_iff (es : List (Nat × Nat)) (rem : List Nat) (v : Nat) :
    noIncoming es rem v = true ↔ ∀ u ∈ rem, ¬ edgeRel es u v := by
  constructor
  · intro h u hu hedge
    have hany : es.any (fun e => e.2 == v && rem.contains e.1) = true :=
      List.any_eq_true.mpr ⟨(u, v), hedge, by
        simp [List.contains, List.elem_iff, hu]⟩
    rw [noIncoming, hany] at h
    exact absurd h (by simp)
  · intro h
    rw [noIncoming, Bool.not_eq_eq_eq_not, Bool.not_true, ← Bool.not_eq_true]
    intro hany
    obtain ⟨e, he, hpred⟩ := List.any_eq_true.mp hany
    obtain ⟨h2, h1⟩ : (e.2 == v) = true ∧ rem.contains e.1 = true := by
      simpa using hpred
    have h2' : e.2 = v := by simpa using h2
    have h1' : e.1 ∈ rem := by simpa [List.contains, List.elem_iff] using h1
    exact h e.1 h1' (show (e.1, v) ∈ es from h2' ▸ he)

/-- The emitted order is a permutation of the remaining vertices. -/
theorem topoAux_perm (es : List (Nat × Nat)) :
    ∀ (n : Nat) (rem : List Nat), rem.length ≤ n → (topoAux es n rem).Perm rem := by
  intro n
  induction n with
  | zero =>
    intro rem h
    have : rem = [] := List.eq_nil_of_length_eq_zero (Nat.le_zero.mp h)
    subst this
    simp [topoAux]
  | succ n ih =>
    intro rem h
    simp only [topoAux]
    cases hf : rem.find? (noIncoming es rem) with
    | none => exact .refl rem
    | some w =>
      have hw : w ∈ rem := List.mem_of_find?_eq_some hf
      have hlen : (rem.erase w).length ≤ n := by
        rw [List.length_erase_of_mem hw]
        omega
      exact ((ih _ hlen).cons w).trans (List.perm_cons_erase hw).symm

/-- On a cycle-free graph, the sort emits the source of every edge
strictly before its target. -/
theorem topoAux_before (es : List (Nat × Nat)) (hnc : NoCycle es) :
    ∀ (n : Nat) (rem : List Nat), rem.length ≤ n → rem.Nodup →
      ∀ u v, edgeRel es u v → u ∈ rem → v ∈ rem → u ≠ v →
        List.indexOf u (topoAux es n rem) < List.indexOf v (topoAux es n rem) := by
  intro n
  induction n with
  | zero =>
    intro rem h _ u v _ hu _ _
    have : rem = [] := List.eq_nil_of_length_eq_zero (Nat.le_zero.mp h)
    subst this
    exact absurd hu (List.not_mem_nil u)
  | succ n ih =>
    intro rem hlen hnd u v hedge hu hv hne
    have hrem : rem ≠ [] := fun h => by subst h; exact absurd hu (List.not_mem_nil u)
    obtain ⟨w0, hw0, hw0n⟩ := exists_source es hnc rem hrem
    have hfsome : (rem.find? (noIncoming es rem)).isSome := List.find?_isSome.mpr
      ⟨w0, hw0, (noIncoming_iff es rem w0).mpr hw0n⟩
    obtain ⟨w, hfw⟩ := Option.isSome_iff_exists.mp hfsome
    have hwmem : w ∈ rem := List.mem_of_find?_eq_some hfw
    have hwpred : noIncoming es rem w = true := List.find?_some hfw
    have hvw : v ≠ w := by
      intro he
      subst he
      exact (noIncoming_iff es rem v).mp hwpred u hu hedge
    simp only [topoAux, hfw]
    by_cases huw : u = w
    · subst huw
      rw [List.indexOf_cons_self]
      rw [List.indexOf_cons_ne _ hne]
      exact Nat.succ_pos _
    · have hu' : u ∈ rem.erase w := (List.mem_erase_of_ne huw).mpr hu
      have hv' : v ∈ rem.erase w := (List.mem_erase_of_ne hvw).mpr hv
      have hlen' : (rem.erase w).length ≤ n := by
        rw [List.length_erase_of_mem hwmem]
        omega
      have ihh := ih (rem.erase w) hlen' (hnd.erase w) u v hedge hu' hv' hne
      rw [List.indexOf_cons_ne _ (fun h => huw h.symm),
        List.indexOf_cons_ne _ (fun h => hvw h.symm)]
      exact Nat.succ_lt_succ ihh

/-- C6: for every reachable dag state, every dependency edge `d → p`
present in the graph has `d` emitted strictly before `p` in the
topological sort (and both appear in the output). -/
theorem sort_respects_dependencies (g : Dag) (hg : ReachableDag g) :
    ∀ d p, (d, p) ∈ g.edges →
      d ∈ sortD g ∧ p ∈ sortD g ∧
      List.indexOf d (sortD g) < List.indexOf p (sortD g) := by
  obtain ⟨⟨hnd, hcl⟩, hac⟩ := reachableDag_invariants g hg
  have hnc : NoCycle g.edges :=
    (acyclicSCC_iff_noCycle g.keys g.edges hnd hcl).mp (by simpa [isAcyclicD] using hac)
  intro d p hdp
  obtain ⟨h1, h2, h3⟩ := hcl (d, p) hdp
  have hperm : (sortD g).Perm g.keys :=
    topoAux_perm g.edges g.keys.length g.keys le_rfl
  exact ⟨hperm.mem_iff.mpr h1, hperm.mem_iff.mpr h2,
    topoAux_before g.edges hnc g.keys.length g.keys le_rfl hnd d p hdp h1 h2 h3⟩

/-- Witness for C6 at a concrete input: in `dagTwo` the edge `(1, 2)`
(producer 2 depends on 1) puts 1 strictly before 2 in the sort. -/
theorem sort_respects_dependencies_witness :
    1 ∈ sortD dagTwo ∧ 2 ∈ sortD dagTwo ∧
    List.indexOf 1 (sortD dagTwo) < List.indexOf 2 (sortD dagTwo) :=
  sort_respects_dependencies dagTwo
    (.edge _ 2 1 (.vertex _ 2 none (.vertex _ 1 none .init))) 1 2 (by decide)

end Cube
